import Mathlib

/-!
# vmxnet3 driver header (`drivers/vmxnet3.hh`): descriptor rings and constant tables

A shallow embedding of the declarations of `drivers/vmxnet3.hh`:

* the register / command / flag constant tables and `bar0_imask`;
* `slice_memory` and the class template `vmxnet3_ring<DescT, NDesc>`;
* the construction state of `vmxnet3_txqueue`.

Addresses are natural numbers, memory is a map from byte addresses to byte
values.  `unsigned`/`u32` values are naturals reduced modulo `2 ^ 32` where a
conversion happens in the source, `int` values are integers.
-/

namespace vmw

/-! ## Constant tables -/

/-- BAR0 registers (`enum bar0`). -/
inductive bar0 where
  | txh | rxh1 | rxh2
  deriving DecidableEq, Repr

/-- Enumerator values of `enum bar0`. -/
def bar0.val : bar0 → Nat
  | .txh => 0x600
  | .rxh1 => 0x800
  | .rxh2 => 0xA00

/-- VMXNET3 commands (`enum command`). -/
inductive command where
  | enable | disable | reset | set_rxmode | set_filter | vlan_filter
  | get_status | get_stats | get_link | get_macl | get_mach | get_intrcfg
  deriving DecidableEq, Repr

/-- Enumerator values of `enum command`. -/
def command.val : command → Nat
  | .enable => 0xCAFE0000
  | .disable => 0xCAFE0001
  | .reset => 0xCAFE0002
  | .set_rxmode => 0xCAFE0003
  | .set_filter => 0xCAFE0004
  | .vlan_filter => 0xCAFE0005
  | .get_status => 0xF00D0000
  | .get_stats => 0xF00D0001
  | .get_link => 0xF00D0002
  | .get_macl => 0xF00D0003
  | .get_mach => 0xF00D0004
  | .get_intrcfg => 0xF00D0008

/-- The six commands that change device state (the `0xCAFE....` block of the table). -/
def command.isSet : command → Bool
  | .enable | .disable | .reset | .set_rxmode | .set_filter | .vlan_filter => true
  | _ => false

/-- The six commands that query the device (the `get_*` enumerators). -/
def command.isGet : command → Bool
  | .get_status | .get_stats | .get_link | .get_macl | .get_mach | .get_intrcfg => true
  | _ => false

/-- RX modes (`enum rxmode`). -/
inductive rxmode where
  | ucast | mcast | bcast | allmulti | promisc
  deriving DecidableEq, Repr

/-- Enumerator values of `enum rxmode`. -/
def rxmode.val : rxmode → Nat
  | .ucast => 0x01
  | .mcast => 0x02
  | .bcast => 0x04
  | .allmulti => 0x08
  | .promisc => 0x10

/-- All enumerators of `enum rxmode`, in declaration order. -/
def rxmode.all : List rxmode := [.ucast, .mcast, .bcast, .allmulti, .promisc]

/-- Hardware features (`enum upt1`). -/
inductive upt1 where
  | fcsum | frss | fvlan | flro
  deriving DecidableEq, Repr

/-- Enumerator values of `enum upt1`. -/
def upt1.val : upt1 → Nat
  | .fcsum => 0x0001
  | .frss => 0x0002
  | .fvlan => 0x0004
  | .flro => 0x0008

/-- All enumerators of `enum upt1`, in declaration order. -/
def upt1.all : List upt1 := [.fcsum, .frss, .fvlan, .flro]

/-- Bitwise OR of the values of the rxmode flags selected by `s`. -/
def rxmode.orOf (s : rxmode → Bool) : Nat :=
  (rxmode.all.filter s).foldl (fun acc f => acc ||| f.val) 0

/-- Bitwise OR of the values of the upt1 flags selected by `s`. -/
def upt1.orOf (s : upt1 → Bool) : Nat :=
  (upt1.all.filter s).foldl (fun acc f => acc ||| f.val) 0

/-- A value is a single bit: it is `2 ^ k` for some bit position `k < 32`. -/
def singleBit (v : Nat) : Bool :=
  (List.range 32).any (fun k => v == 2 ^ k)

/-- Number of transmit queues (`constexpr int tx_queues = 1`). -/
def tx_queues : Int := 1

/-- Number of receive queues (`constexpr int rx_queues = 1`). -/
def rx_queues : Int := 1

/-- Number of interrupt vectors (`constexpr int num_intrs = 3`). -/
def num_intrs : Int := 3

/-- Initial parity of a ring (`constexpr int init_gen = 1`). -/
def init_gen : Int := 1

/-- Source `static inline constexpr u32 bar0_imask(int irq) { return 0x000 + irq * 8; }`:
the `int` result is converted to `u32`. -/
def bar0_imask (irq : Int) : Nat :=
  ((0x000 + irq * 8) % 2 ^ 32).toNat

/-! ## Memory, descriptor containers and `slice_memory` -/

/-- Byte-addressed memory: the byte value stored at each address. -/
abbrev Mem := Nat → Nat

/-- Modelled from the spec: `memory::phys_contiguous_memory` (`osv/mempool.hh`) is not part
of this header.  The allocator collaborator returns a block of `size` bytes that starts at
the locally addressable address `va`. -/
structure phys_contiguous_memory where
  va : Nat
  size : Nat
  deriving DecidableEq, Repr

/-- Accessor `get_va()` of the allocated block. -/
def phys_contiguous_memory.get_va (b : phys_contiguous_memory) : Nat := b.va

/-- Modelled from the spec: the descriptor container classes (`vmxnet3_tx_desc`,
`vmxnet3_tx_compdesc`, ... of `drivers/vmxnet3-queues.hh`) are not part of this header.
A container records the address of the chunk it is attached to (`layout`, null before
`attach`); its descriptor content is the `size()` bytes stored at that address. -/
structure DescT where
  layout : Nat
  deriving DecidableEq, Repr

/-- Modelled from the spec: `attach(va)`, missing with the container classes, associates the
chunk at `va` with the container. -/
def DescT.attach (_e : DescT) (va : Nat) : DescT := { layout := va }

/-- Modelled from the spec: `clear()`, missing with the container classes, zeroes the
descriptor content, the `sz = size()` bytes of the attached chunk. -/
def DescT.clear (sz : Nat) (e : DescT) (m : Mem) : Mem :=
  fun a => if e.layout ≤ a ∧ a < e.layout + sz then 0 else m a

/-- The descriptor content of a container: the `sz` bytes of its chunk, in address order. -/
def DescT.content (sz : Nat) (e : DescT) (m : Mem) : List Nat :=
  (List.range sz).map (fun k => m (e.layout + k))

/-- Address `a` lies in the chunk of container `e`. -/
def DescT.inChunk (sz : Nat) (e : DescT) (a : Nat) : Prop :=
  e.layout ≤ a ∧ a < e.layout + sz

instance (sz : Nat) (e : DescT) (a : Nat) : Decidable (e.inChunk sz a) := by
  unfold DescT.inChunk; infer_instance

/-- What `slice_memory` uses of the element type of `holder`: `e.attach(va)` and `e.size()`. -/
structure Container (E : Type) where
  attach : E → Nat → E
  size : E → Nat

/-- The container operations of a descriptor class whose static `size()` is `sz`. -/
def DescT.container (sz : Nat) : Container DescT where
  attach := DescT.attach
  size := fun _ => sz

/-- Source `template<class T> void slice_memory(void *&va, T &holder)`:
`for (auto &e : holder) { e.attach(va); va += e.size(); }`.
Returns the final value of the reference `va` and the updated `holder`. -/
def slice_memory {E : Type} (ops : Container E) (va : Nat) : List E → Nat × List E
  | [] => (va, [])
  | e :: rest =>
    let e1 := ops.attach e va
    let r := slice_memory ops (va + ops.size e1) rest
    (r.1, e1 :: r.2)

/-! ## `vmxnet3_ring<DescT, NDesc>` -/

/-- Source `template<class DescT, int NDesc> class vmxnet3_ring`: the cursors `head`, `next`,
`fill`, the parity `gen`, the descriptor memory block and the array `DescT _desc[NDesc]`. -/
structure vmxnet3_ring (NDesc : Nat) where
  head : Nat
  next : Nat
  fill : Nat
  gen : Int
  _desc_mem : phys_contiguous_memory
  _desc : List DescT
  _desc_len : _desc.length = NDesc

/-- Constructor `vmxnet3_ring()`: `_desc_mem(DescT::size() * NDesc, align::desc)`, then
`void *va = _desc_mem.get_va(); slice_memory(va, _desc);`.  `alloc_va` is the address the
allocator returns; the cursors and the parity are not initialised by the constructor and
keep the indeterminate values `head0 next0 fill0 gen0`. -/
def vmxnet3_ring.construct (sz NDesc : Nat) (alloc_va : Nat)
    (head0 next0 fill0 : Nat) (gen0 : Int) : vmxnet3_ring NDesc :=
  let _desc_mem : phys_contiguous_memory := { va := alloc_va, size := sz * NDesc }
  let va := _desc_mem.get_va
  { head := head0
    next := next0
    fill := fill0
    gen := gen0
    _desc_mem := _desc_mem
    _desc := (slice_memory (DescT.container sz) va (List.replicate NDesc { layout := 0 })).2
    _desc_len := by
      have key : ∀ (l : List DescT) (v : Nat),
          (slice_memory (DescT.container sz) v l).2.length = l.length := by
        intro l
        induction l with
        | nil => intro v; rfl
        | cons e rest ih => intro v; simp [slice_memory, ih]
      simp [key] }

/-- Source `static u32 get_desc_num() { return NDesc; }`: the `int` template argument converted
to `u32`.  The function is static: the ring it is called on is not looked at. -/
def vmxnet3_ring.get_desc_num {NDesc : Nat} (_r : vmxnet3_ring NDesc) : Nat :=
  NDesc % 2 ^ 32

/-- Source `DescT* get_desc(int i) { return &_desc[i]; }`.  A pointer to an element of `_desc` is
represented by the number of the slot it points to.  An index outside the array designates
no element (undefined in the source): `none`.  The ring is returned with the pointer. -/
def vmxnet3_ring.get_desc {NDesc : Nat} (r : vmxnet3_ring NDesc) (i : Int) :
    Option (Nat × vmxnet3_ring NDesc) :=
  if 0 ≤ i ∧ i.toNat < r._desc.length then some (i.toNat, r) else none

/-- Reading through a pointer returned by `get_desc`: the container in that slot. -/
def vmxnet3_ring.deref {NDesc : Nat} (r : vmxnet3_ring NDesc) (p : Nat) : Option DescT :=
  r._desc[p]?

/-- Source `void clear_desc(int i) { _desc[i].clear(); }` on the ring `r` and the memory `m`.
An index outside the array is undefined in the source: `none`. -/
def vmxnet3_ring.clear_desc {NDesc : Nat} (sz : Nat) (r : vmxnet3_ring NDesc) (m : Mem)
    (i : Int) : Option (vmxnet3_ring NDesc × Mem) :=
  if 0 ≤ i then
    match r._desc[i.toNat]? with
    | some e => some (r, e.clear sz m)
    | none => none
  else none

/-- The loop of `clear_descs`, `for (int i = 0; i < NDesc; i++) clear_desc(i);`, entered with
counter `i` and `todo = NDesc - i` iterations to go. -/
def vmxnet3_ring.clear_descs_loop {NDesc : Nat} (sz : Nat) :
    Nat → Int → vmxnet3_ring NDesc → Mem → Option (vmxnet3_ring NDesc × Mem)
  | 0, _, r, m => some (r, m)
  | todo + 1, i, r, m =>
    match r.clear_desc sz m i with
    | some (r1, m1) => vmxnet3_ring.clear_descs_loop sz todo (i + 1) r1 m1
    | none => none

/-- Source `void clear_descs() { for (int i = 0; i < NDesc; i++) clear_desc(i); }`. -/
def vmxnet3_ring.clear_descs {NDesc : Nat} (sz : Nat) (r : vmxnet3_ring NDesc) (m : Mem) :
    Option (vmxnet3_ring NDesc × Mem) :=
  vmxnet3_ring.clear_descs_loop sz NDesc 0 r m

/-- One step of applying `clear_desc` to the indices of a list in turn. -/
def vmxnet3_ring.clear_desc_step {NDesc : Nat} (sz : Nat)
    (acc : Option (vmxnet3_ring NDesc × Mem)) (i : Nat) : Option (vmxnet3_ring NDesc × Mem) :=
  match acc with
  | some (r, m) => r.clear_desc sz m (i : Int)
  | none => none

/-- The chunks of the ring were laid out by the constructor: slot `i` is attached at
`_desc_mem.get_va() + i * DescT::size()`.  `_desc` is private and only the constructor
attaches its elements, so this holds of every ring object. -/
def vmxnet3_ring.Sliced {NDesc : Nat} (sz : Nat) (r : vmxnet3_ring NDesc) : Prop :=
  r._desc = (List.range NDesc).map (fun i => ({ layout := r._desc_mem.get_va + i * sz } : DescT))

/-! ## `vmxnet3_txqueue` -/

/-- Source `class vmxnet3_txqueue`: the command ring, the completion ring, the side table
`struct mbuf *buf[VMXNET3_MAX_TX_NDESC]` (buffer handles as pointer values) and `avail`.
`NTX` is `VMXNET3_MAX_TX_NDESC`, `NTXC` is `VMXNET3_MAX_TX_NCOMPDESC`; neither macro is
defined in this header. -/
structure vmxnet3_txqueue (NTX NTXC : Nat) where
  cmd_ring : vmxnet3_ring NTX
  comp_ring : vmxnet3_ring NTXC
  buf : List Nat
  buf_len : buf.length = NTX
  avail : Nat

/-- Construction of a `vmxnet3_txqueue`: both rings are built by the ring constructor
(descriptor sizes `szTx`, `szComp`, allocator addresses `vaTx`, `vaComp`), `buf` is left
with indeterminate entries `junk k`, and `unsigned avail = VMXNET3_MAX_TX_NDESC`.  The
cursors of both rings start with the indeterminate values `c 0 .. c 5`, `g 0`, `g 1`. -/
def vmxnet3_txqueue.construct (NTX NTXC : Nat) (szTx szComp vaTx vaComp : Nat)
    (c : Nat → Nat) (g : Nat → Int) (junk : Nat → Nat) : vmxnet3_txqueue NTX NTXC where
  cmd_ring := vmxnet3_ring.construct szTx NTX vaTx (c 0) (c 1) (c 2) (g 0)
  comp_ring := vmxnet3_ring.construct szComp NTXC vaComp (c 3) (c 4) (c 5) (g 1)
  buf := (List.range NTX).map junk
  buf_len := by simp
  avail := NTX % 2 ^ 32

/-! ## Cursor operations and the transmit step

The bodies of `increment_fill`, of the queue `init` functions, of `txq_gc`, `txq_encap` and
`try_xmit_one_locked` are in `drivers/vmxnet3.cc`; the header only declares them. -/

/-- Modelled from the spec: the queue `init()` bodies are missing (declared only).  A freshly
initialised ring has all cursors cleared and the parity at its initial value `init_gen`. -/
def vmxnet3_ring.fresh {NDesc : Nat} (r : vmxnet3_ring NDesc) : vmxnet3_ring NDesc :=
  { r with head := 0, next := 0, fill := 0, gen := init_gen }

/-- Modelled from the spec: the body of `vmxnet3_ring::increment_fill` is missing (declared
only).  `advance()` increments `next` and `fill`; `next` is the next slot to post, so it
wraps after slot `NDesc - 1`, and `gen` is flipped on that wraparound, once per full
traversal of the `NDesc` slots. -/
def vmxnet3_ring.increment_fill {NDesc : Nat} (r : vmxnet3_ring NDesc) : vmxnet3_ring NDesc :=
  if r.next + 1 = NDesc then
    { r with next := 0, fill := r.fill + 1, gen := Int.xor r.gen 1 }
  else
    { r with next := r.next + 1, fill := r.fill + 1 }

/-- The ring after `k` consecutive `increment_fill` calls. -/
def vmxnet3_ring.advances {NDesc : Nat} (r : vmxnet3_ring NDesc) : Nat → vmxnet3_ring NDesc
  | 0 => r
  | k + 1 => (vmxnet3_ring.advances r k).increment_fill

/-- Modelled from the spec: `struct mbuf` belongs to the network stack and is not part of this
header.  An outgoing packet is a buffer handle with its chain of fragments, each a
physical address and a length. -/
structure mbuf where
  handle : Nat
  frags : List (Nat × Nat)
  deriving DecidableEq, Repr

/-- Source `struct vmxnet3_req { struct mbuf *mb; unsigned count; int start; }`. -/
structure vmxnet3_req where
  mb : mbuf
  count : Nat
  start : Int
  deriving DecidableEq, Repr

/-- Modelled from the spec: the transmit descriptor layout (`drivers/vmxnet3-queues.hh`) is
missing.  A transmit descriptor carries the buffer physical address, the length, the
start/end-of-packet flags, the parity bit and the offload control field. -/
structure tx_fields where
  addr : Nat
  len : Nat
  sop : Bool
  eop : Bool
  gen : Int
  om : Nat
  deriving DecidableEq, Repr

/-- Modelled from the spec: writing a descriptor through its container is missing with the
container classes.  The `sz` bytes `bytes 0 .. bytes (sz - 1)` replace the content of the
attached chunk. -/
def DescT.write (sz : Nat) (e : DescT) (bytes : Nat → Nat) (m : Mem) : Mem :=
  fun a => if e.layout ≤ a ∧ a < e.layout + sz then bytes (a - e.layout) else m a

/-- Outcome of the transmit step: the chain was posted, or it was rejected (backpressure). -/
inductive xmit_result where
  | accepted
  | rejected
  deriving DecidableEq, Repr

/-- Modelled from the spec: the body of `vmxnet3::txq_encap` is missing (declared only).
Posting one fragment writes one descriptor into the next slot to post (address, length,
start/end-of-packet flags, the current parity bit of the ring, offload control), records
the buffer handle in the side table, takes one free slot and advances the ring.  `enc` is
the bit layout of a transmit descriptor. -/
def txq_post_frag {NTX NTXC : Nat} (sz : Nat) (enc : tx_fields → Nat → Nat)
    (txq : vmxnet3_txqueue NTX NTXC) (m : Mem) (handle om : Nat) (frag : Nat × Nat)
    (sop eop : Bool) : vmxnet3_txqueue NTX NTXC × Mem :=
  let slot := txq.cmd_ring.next
  let d : tx_fields :=
    { addr := frag.1, len := frag.2, sop := sop, eop := eop, gen := txq.cmd_ring.gen, om := om }
  let m1 := match txq.cmd_ring._desc[slot]? with
    | some e => e.write sz (enc d) m
    | none => m
  ({ txq with
      cmd_ring := txq.cmd_ring.increment_fill
      buf := txq.buf.set slot handle
      buf_len := by simp [txq.buf_len]
      avail := txq.avail - 1 }, m1)

/-- Modelled from the spec: the fragment loop of `vmxnet3::txq_encap` (body missing): one
descriptor per fragment, in chain order; only the first is marked start-of-packet and only
the last end-of-packet. -/
def txq_encap_loop {NTX NTXC : Nat} (sz : Nat) (enc : tx_fields → Nat → Nat)
    (handle om : Nat) : Bool → List (Nat × Nat) → vmxnet3_txqueue NTX NTXC → Mem →
    vmxnet3_txqueue NTX NTXC × Mem
  | _, [], txq, m => (txq, m)
  | sop, frag :: rest, txq, m =>
    let r := txq_post_frag sz enc txq m handle om frag sop rest.isEmpty
    txq_encap_loop sz enc handle om false rest r.1 r.2

/-- Modelled from the spec: `vmxnet3::txq_encap` (body missing): encapsulate the fragment
chain of the request; `offload` stands for `txq_offload`, which picks the offload mode. -/
def txq_encap {NTX NTXC : Nat} (sz : Nat) (enc : tx_fields → Nat → Nat)
    (offload : vmxnet3_req → Nat) (txq : vmxnet3_txqueue NTX NTXC) (m : Mem)
    (req : vmxnet3_req) : vmxnet3_txqueue NTX NTXC × Mem :=
  txq_encap_loop sz enc req.mb.handle (offload req) true req.mb.frags txq m

/-- Modelled from the spec: `vmxnet3::try_xmit_one_locked(vmxnet3_req *)` (body missing).
The transmit step requires free command-ring capacity for the entire fragment chain; if
there is not enough, the whole chain is rejected, otherwise it is encapsulated. -/
def try_xmit_one_locked {NTX NTXC : Nat} (sz : Nat) (enc : tx_fields → Nat → Nat)
    (offload : vmxnet3_req → Nat) (txq : vmxnet3_txqueue NTX NTXC) (m : Mem)
    (req : vmxnet3_req) : xmit_result × vmxnet3_txqueue NTX NTXC × Mem :=
  if txq.avail < req.count then
    (.rejected, txq, m)
  else
    let r := txq_encap sz enc offload txq m req
    (.accepted, r.1, r.2)

/-! ## A concrete ring -/

/-- A ring of four 16-byte descriptors allocated at address 4096, cursors cleared. -/
def exampleRing : vmxnet3_ring 4 := vmxnet3_ring.construct 16 4 4096 0 0 0 1

/-- A memory in which every byte is `0xFF`. -/
def exampleMem : Mem := fun _ => 0xFF

/-- A transmit queue of four command and four completion descriptors of 16 bytes. -/
def exampleTxq : vmxnet3_txqueue 4 4 :=
  vmxnet3_txqueue.construct 4 4 16 16 4096 8192 (fun _ => 0) (fun _ => 1) (fun _ => 0)

/-- A request of five fragments: one more than `exampleTxq` has slots. -/
def exampleReq : vmxnet3_req :=
  { mb := { handle := 77,
            frags := [(0x10000, 100), (0x11000, 100), (0x12000, 100), (0x13000, 100),
              (0x14000, 60)] }
    count := 5
    start := 0 }

/-- A descriptor layout for the example: byte 0 holds the length, byte 1 the flags. -/
def exampleEnc (d : tx_fields) (k : Nat) : Nat :=
  if k = 0 then d.len % 256
  else if k = 1 then (if d.sop then 1 else 0) + (if d.eop then 2 else 0) + (if d.gen = 1 then 4 else 0)
  else 0

/-! # Theorems -/

/-! ## Constant tables and interrupt layout -/

theorem rxmode_orOf_bit (s : rxmode → Bool) (f : rxmode) :
    s f = (rxmode.orOf s &&& f.val != 0) := by
  unfold rxmode.orOf rxmode.all
  cases h1 : s .ucast <;> cases h2 : s .mcast <;> cases h3 : s .bcast <;>
    cases h4 : s .allmulti <;> cases h5 : s .promisc <;> cases f <;>
    simp [List.filter, h1, h2, h3, h4, h5, rxmode.val] <;> decide

theorem upt1_orOf_bit (s : upt1 → Bool) (f : upt1) :
    s f = (upt1.orOf s &&& f.val != 0) := by
  unfold upt1.orOf upt1.all
  cases h1 : s .fcsum <;> cases h2 : s .frss <;> cases h3 : s .fvlan <;>
    cases h4 : s .flro <;> cases f <;>
    simp [List.filter, h1, h2, h3, h4, upt1.val] <;> decide

/-- C7: there is one interrupt vector per queue plus one event vector
(`num_intrs = tx_queues + rx_queues + 1`), and for vectors `irq`, `irq'` in
`[0, num_intrs)` the mask register offset `bar0_imask irq` is `8 * irq`, differs from that
of every other vector, and lies strictly below (hence differs from) each of the doorbell
registers `txh`, `rxh1`, `rxh2`. -/
theorem interrupt_layout (irq irq' : Int) (h : 0 ≤ irq ∧ irq < num_intrs)
    (h' : 0 ≤ irq' ∧ irq' < num_intrs) :
    num_intrs = tx_queues + rx_queues + 1 ∧
    (bar0_imask irq : Int) = 8 * irq ∧
    (bar0_imask irq = bar0_imask irq' → irq = irq') ∧
    bar0_imask irq < bar0.val .txh ∧
    bar0_imask irq < bar0.val .rxh1 ∧
    bar0_imask irq < bar0.val .rxh2 ∧
    ∀ d : bar0, bar0_imask irq ≠ d.val := by
  obtain ⟨h0, h1⟩ := h
  obtain ⟨h0', h1'⟩ := h'
  have e : irq = 0 ∨ irq = 1 ∨ irq = 2 := by unfold num_intrs at h1; omega
  have e' : irq' = 0 ∨ irq' = 1 ∨ irq' = 2 := by unfold num_intrs at h1'; omega
  refine ⟨by decide, ?_, ?_, ?_, ?_, ?_, ?_⟩
  · rcases e with rfl | rfl | rfl <;> decide
  · rcases e with rfl | rfl | rfl <;> rcases e' with rfl | rfl | rfl <;> decide
  · rcases e with rfl | rfl | rfl <;> decide
  · rcases e with rfl | rfl | rfl <;> decide
  · rcases e with rfl | rfl | rfl <;> decide
  · intro d
    rcases e with rfl | rfl | rfl <;> cases d <;> decide

theorem interrupt_layout_witness :
    (0 ≤ (1 : Int) ∧ (1 : Int) < num_intrs) ∧ (0 ≤ (2 : Int) ∧ (2 : Int) < num_intrs) ∧
    bar0_imask 1 = 8 ∧ bar0_imask 2 = 16 ∧ (bar0_imask 1 = bar0_imask 2 → (1 : Int) = 2) :=
  ⟨by decide, by decide, by decide, by decide,
    (interrupt_layout 1 2 (by decide) (by decide)).2.2.1⟩

/-- C10: the twelve command tokens are pairwise distinct; each of the six state-changing
commands has high 16 bits `0xCAFE` and each of the six query commands has high 16 bits
`0xF00D` (and every command is one or the other); the rxmode flags and the upt1 flags are
distinct single-bit values, and the bitwise OR of a subset of flags determines the
subset. -/
theorem constant_tables_unambiguous :
    (∀ c d : command, c.val = d.val → c = d) ∧
    (∀ c : command, c.isSet = true → c.val >>> 16 = 0xCAFE) ∧
    (∀ c : command, c.isGet = true → c.val >>> 16 = 0xF00D) ∧
    (∀ c : command, c.isSet = !c.isGet) ∧
    (∀ f : rxmode, singleBit f.val = true) ∧
    (∀ f g : rxmode, f.val = g.val → f = g) ∧
    (∀ f : upt1, singleBit f.val = true) ∧
    (∀ f g : upt1, f.val = g.val → f = g) ∧
    (∀ s t : rxmode → Bool, rxmode.orOf s = rxmode.orOf t → s = t) ∧
    (∀ s t : upt1 → Bool, upt1.orOf s = upt1.orOf t → s = t) := by
  refine ⟨?_, ?_, ?_, ?_, ?_, ?_, ?_, ?_, ?_, ?_⟩
  · intro c d; cases c <;> cases d <;> decide
  · intro c; cases c <;> decide
  · intro c; cases c <;> decide
  · intro c; cases c <;> rfl
  · intro f; cases f <;> decide
  · intro f g; cases f <;> cases g <;> decide
  · intro f; cases f <;> decide
  · intro f g; cases f <;> cases g <;> decide
  · intro s t hst
    funext f
    rw [rxmode_orOf_bit s f, rxmode_orOf_bit t f, hst]
  · intro s t hst
    funext f
    rw [upt1_orOf_bit s f, upt1_orOf_bit t f, hst]

/-! ## `slice_memory` and the layout of a constructed ring -/

theorem slice_memory_length {E : Type} (ops : Container E) (l : List E) (va : Nat) :
    (slice_memory ops va l).2.length = l.length := by
  induction l generalizing va with
  | nil => rfl
  | cons e rest ih => simp [slice_memory, ih]

theorem slice_memory_slot {E : Type} (ops : Container E) (l : List E) (va : Nat) (j : Nat) :
    (slice_memory ops va l).2[j]? =
      (l[j]?).map (fun e =>
        ops.attach e (va + (((slice_memory ops va l).2.take j).map ops.size).sum)) := by
  induction l generalizing va j with
  | nil => simp [slice_memory]
  | cons e rest ih =>
    cases j with
    | zero => simp [slice_memory]
    | succ j =>
      simp only [slice_memory, List.getElem?_cons_succ, List.take_succ_cons, List.map_cons,
        List.sum_cons]
      rw [ih]
      simp [Nat.add_assoc]

theorem slice_memory_end {E : Type} (ops : Container E) (l : List E) (va : Nat) :
    (slice_memory ops va l).1 = va + ((slice_memory ops va l).2.map ops.size).sum := by
  induction l generalizing va with
  | nil => simp [slice_memory]
  | cons e rest ih =>
    simp only [slice_memory, List.map_cons, List.sum_cons]
    rw [ih]
    simp [Nat.add_assoc]

theorem slice_memory_replicate (sz va : Nat) (d : DescT) (n : Nat) :
    (slice_memory (DescT.container sz) va (List.replicate n d)).2 =
      (List.range n).map (fun i => ({ layout := va + i * sz } : DescT)) := by
  induction n generalizing va with
  | zero => rfl
  | succ n ih =>
    rw [List.replicate_succ, List.range_succ_eq_map]
    simp only [slice_memory, List.map_cons, List.map_map]
    rw [ih]
    simp only [DescT.container, DescT.attach, Function.comp_def, Nat.zero_mul, Nat.add_zero,
      List.cons.injEq, true_and]
    apply List.map_congr_left
    intro a _
    congr 1
    rw [Nat.succ_mul]
    omega

theorem construct_sliced (sz NDesc va h n f : Nat) (g : Int) :
    (vmxnet3_ring.construct sz NDesc va h n f g).Sliced sz := by
  unfold vmxnet3_ring.Sliced vmxnet3_ring.construct
  simp [slice_memory_replicate, phys_contiguous_memory.get_va]

theorem sliced_slot {NDesc : Nat} (sz : Nat) (r : vmxnet3_ring NDesc) (hs : r.Sliced sz)
    (i : Nat) (hi : i < NDesc) :
    r._desc[i]? = some { layout := r._desc_mem.get_va + i * sz } := by
  rw [hs]
  simp [hi]

theorem chunk_index (sz base i a : Nat) (h : base + i * sz ≤ a ∧ a < base + i * sz + sz) :
    0 < sz ∧ (a - base) / sz = i := by
  obtain ⟨h1, h2⟩ := h
  have hsz : 0 < sz := by omega
  refine ⟨hsz, ?_⟩
  apply Nat.div_eq_of_lt_le
  · have : i * sz ≤ a - base := by omega
    simpa [Nat.mul_comm] using this
  · have : a - base < i * sz + sz := by omega
    simpa [Nat.succ_mul, Nat.mul_comm] using this

/-- C6: `slice_memory` attaches element `j` of `holder` at `va0` plus the sum of the sizes of
the elements before it, in array order, and leaves `va` at `va0` plus the sum of all sizes.
Consequently, in a ring built by the constructor on an allocation at `base`, slot `i` is
attached at `base + i * DescT::size()`, the chunks of two different slots share no
address, and the chunks of the `NDesc` slots together are exactly the
`DescT::size() * NDesc` allocated bytes. -/
theorem slice_memory_layout :
    (∀ (E : Type) (ops : Container E) (holder : List E) (va0 j : Nat),
      (slice_memory ops va0 holder).2.length = holder.length ∧
      (slice_memory ops va0 holder).2[j]? =
        (holder[j]?).map (fun e =>
          ops.attach e (va0 + (((slice_memory ops va0 holder).2.take j).map ops.size).sum)) ∧
      (slice_memory ops va0 holder).1 =
        va0 + ((slice_memory ops va0 holder).2.map ops.size).sum) ∧
    (∀ (sz NDesc base h n f : Nat) (g : Int),
      let r := vmxnet3_ring.construct sz NDesc base h n f g
      r._desc_mem = { va := base, size := sz * NDesc } ∧
      (∀ i, i < NDesc → r._desc[i]? = some { layout := base + i * sz }) ∧
      (∀ i j a, i < NDesc → j < NDesc → i ≠ j →
        ¬ (DescT.inChunk sz { layout := base + i * sz } a ∧
           DescT.inChunk sz { layout := base + j * sz } a)) ∧
      (∀ a, (r._desc_mem.va ≤ a ∧ a < r._desc_mem.va + r._desc_mem.size) ↔
        ∃ i, i < NDesc ∧ DescT.inChunk sz { layout := base + i * sz } a)) := by
  refine ⟨fun E ops holder va0 j => ⟨slice_memory_length ops holder va0,
    slice_memory_slot ops holder va0 j, slice_memory_end ops holder va0⟩, ?_⟩
  intro sz NDesc base h n f g r
  refine ⟨rfl, ?_, ?_, ?_⟩
  · intro i hi
    exact sliced_slot sz r (construct_sliced sz NDesc base h n f g) i hi
  · intro i j a _ _ hij hc
    obtain ⟨hi, hj⟩ := hc
    have e1 := (chunk_index sz base i a hi).2
    have e2 := (chunk_index sz base j a hj).2
    exact hij (e1.symm.trans e2)
  · intro a
    show (base ≤ a ∧ a < base + sz * NDesc) ↔ _
    constructor
    · rintro ⟨h1, h2⟩
      have hsz : 0 < sz := by
        rcases Nat.eq_zero_or_pos sz with h0 | h0
        · subst h0; simp at h2; omega
        · exact h0
      refine ⟨(a - base) / sz, ?_, ?_⟩
      · apply Nat.div_lt_of_lt_mul
        omega
      · unfold DescT.inChunk
        have hd := Nat.div_add_mod (a - base) sz
        have hm := Nat.mod_lt (a - base) hsz
        have hc : (a - base) / sz * sz = sz * ((a - base) / sz) := Nat.mul_comm _ _
        constructor
        · show base + (a - base) / sz * sz ≤ a
          omega
        · show a < base + (a - base) / sz * sz + sz
          omega
    · rintro ⟨i, hi, h1, h2⟩
      have h1' : base + i * sz ≤ a := h1
      have h2' : a < base + i * sz + sz := h2
      have : i * sz + sz ≤ sz * NDesc := by
        have : (i + 1) * sz ≤ NDesc * sz := Nat.mul_le_mul_right sz hi
        simpa [Nat.succ_mul, Nat.mul_comm] using this
      constructor <;> omega

/-! ## Slot lookup and ring capacity -/

/-- C4: for a ring of capacity `NDesc` and an index `i` with `0 ≤ i < NDesc`, `get_desc i` is
defined: it returns a pointer to slot `i`, which lies inside the descriptor array and
reads as exactly the container stored in slot `i`; the ring is returned unchanged; and for
another valid index `j ≠ i`, `get_desc j` returns a different slot. -/
theorem get_desc_valid {NDesc : Nat} (r : vmxnet3_ring NDesc) (i j : Int)
    (hi : 0 ≤ i ∧ i < NDesc) (hj : 0 ≤ j ∧ j < NDesc) :
    ∃ p e, r.get_desc i = some (p, r) ∧ (p : Int) = i ∧ p < NDesc ∧
      r.deref p = some e ∧ r._desc[i.toNat]? = some e ∧
      ∃ q, r.get_desc j = some (q, r) ∧ (i ≠ j → p ≠ q) := by
  obtain ⟨hi0, hi1⟩ := hi
  obtain ⟨hj0, hj1⟩ := hj
  have hlen := r._desc_len
  have hi2 : i.toNat < r._desc.length := by omega
  have hj2 : j.toNat < r._desc.length := by omega
  refine ⟨i.toNat, r._desc[i.toNat], ?_, ?_, ?_, ?_, ?_, j.toNat, ?_, ?_⟩
  · simp [vmxnet3_ring.get_desc, hi0, hi2]
  · omega
  · omega
  · simp [vmxnet3_ring.deref, hi2]
  · simp [hi2]
  · simp [vmxnet3_ring.get_desc, hj0, hj2]
  · intro hij; omega

theorem get_desc_valid_witness :
    ((0 : Int) ≤ 1 ∧ (1 : Int) < (4 : Nat)) ∧ ((0 : Int) ≤ 3 ∧ (3 : Int) < (4 : Nat)) ∧
    ∃ p e, (vmxnet3_ring.construct 16 4 4096 0 0 0 1).get_desc 1 =
        some (p, vmxnet3_ring.construct 16 4 4096 0 0 0 1) ∧ (p : Int) = 1 ∧ p < 4 ∧
      (vmxnet3_ring.construct 16 4 4096 0 0 0 1).deref p = some e ∧
      (vmxnet3_ring.construct 16 4 4096 0 0 0 1)._desc[(1 : Int).toNat]? = some e ∧
      ∃ q, (vmxnet3_ring.construct 16 4 4096 0 0 0 1).get_desc 3 =
        some (q, vmxnet3_ring.construct 16 4 4096 0 0 0 1) ∧ ((1 : Int) ≠ 3 → p ≠ q) :=
  ⟨by decide, by decide,
    get_desc_valid (vmxnet3_ring.construct 16 4 4096 0 0 0 1) 1 3 (by decide) (by decide)⟩

/-- C9: a freshly constructed `vmxnet3_txqueue` (with `VMXNET3_MAX_TX_NDESC = NTX`, an `int`
constant) has `avail` equal to `cmd_ring.get_desc_num()`, to `NTX` and to the number of
entries of `buf`; and `get_desc_num()` is the capacity `NDesc` on every ring state, so on
any two states of a ring it returns the same value. -/
theorem txqueue_construct_avail (NTX NTXC szTx szComp vaTx vaComp : Nat)
    (c : Nat → Nat) (g : Nat → Int) (junk : Nat → Nat) (hN : NTX < 2 ^ 31) :
    (vmxnet3_txqueue.construct NTX NTXC szTx szComp vaTx vaComp c g junk).avail =
      (vmxnet3_txqueue.construct NTX NTXC szTx szComp vaTx vaComp c g junk).cmd_ring.get_desc_num ∧
    (vmxnet3_txqueue.construct NTX NTXC szTx szComp vaTx vaComp c g junk).cmd_ring.get_desc_num
      = NTX ∧
    (vmxnet3_txqueue.construct NTX NTXC szTx szComp vaTx vaComp c g junk).buf.length = NTX ∧
    (∀ r : vmxnet3_ring NTX, r.get_desc_num = NTX) ∧
    (∀ r r1 : vmxnet3_ring NTX, r.get_desc_num = r1.get_desc_num) := by
  have hmod : NTX % 2 ^ 32 = NTX := Nat.mod_eq_of_lt (by omega)
  refine ⟨?_, ?_, ?_, ?_, ?_⟩
  · simp [vmxnet3_txqueue.construct, vmxnet3_ring.get_desc_num]
  · simpa [vmxnet3_ring.get_desc_num] using hmod
  · simp [vmxnet3_txqueue.construct]
  · intro r; simpa [vmxnet3_ring.get_desc_num] using hmod
  · intro r r1; rfl

theorem txqueue_construct_avail_witness :
    512 < 2 ^ 31 ∧
    (vmxnet3_txqueue.construct 512 512 16 16 4096 16384 (fun _ => 7) (fun _ => 0)
      (fun _ => 0)).avail = 512 :=
  ⟨by decide,
    (txqueue_construct_avail 512 512 16 16 4096 16384 (fun _ => 7) (fun _ => 0) (fun _ => 0)
      (by decide)).1.trans
    (txqueue_construct_avail 512 512 16 16 4096 16384 (fun _ => 7) (fun _ => 0) (fun _ => 0)
      (by decide)).2.1⟩

/-! ## Clearing descriptors -/

theorem clear_desc_valid {NDesc : Nat} (sz : Nat) (r : vmxnet3_ring NDesc) (m : Mem)
    (k : Nat) (e : DescT) (hk : r._desc[k]? = some e) :
    r.clear_desc sz m (k : Int) = some (r, e.clear sz m) := by
  simp [vmxnet3_ring.clear_desc, hk]

theorem clear_fold_apply (sz : Nat) (es : List DescT) (m : Mem) (a : Nat) :
    (es.foldl (fun acc e => DescT.clear sz e acc) m) a =
      if ∃ e, e ∈ es ∧ e.inChunk sz a then 0 else m a := by
  induction es generalizing m with
  | nil => simp
  | cons e rest ih =>
    rw [List.foldl_cons, ih]
    by_cases h1 : ∃ e1, e1 ∈ rest ∧ e1.inChunk sz a
    · have h2 : ∃ e1, e1 ∈ e :: rest ∧ e1.inChunk sz a := by
        obtain ⟨e1, he1, hc⟩ := h1
        exact ⟨e1, List.mem_cons_of_mem _ he1, hc⟩
      rw [if_pos h1, if_pos h2]
    · rw [if_neg h1]
      by_cases h3 : e.inChunk sz a
      · have h2 : ∃ e1, e1 ∈ e :: rest ∧ e1.inChunk sz a := ⟨e, List.mem_cons_self _ _, h3⟩
        rw [if_pos h2]
        unfold DescT.inChunk at h3
        simp [DescT.clear, h3]
      · have h2 : ¬ ∃ e1, e1 ∈ e :: rest ∧ e1.inChunk sz a := by
          rintro ⟨e1, he1, hc⟩
          rcases List.mem_cons.mp he1 with rfl | hr
          · exact h3 hc
          · exact h1 ⟨e1, hr, hc⟩
        rw [if_neg h2]
        unfold DescT.inChunk at h3
        simp [DescT.clear, h3]

theorem clear_descs_loop_eq {NDesc : Nat} (sz : Nat) (r : vmxnet3_ring NDesc) (todo : Nat) :
    ∀ (k : Nat) (m : Mem), k + todo = r._desc.length →
      vmxnet3_ring.clear_descs_loop sz todo (k : Int) r m =
        some (r, (r._desc.drop k).foldl (fun acc e => DescT.clear sz e acc) m) := by
  induction todo with
  | zero =>
    intro k m hk
    have : r._desc.drop k = [] := List.drop_eq_nil_of_le (by omega)
    simp [vmxnet3_ring.clear_descs_loop, this]
  | succ todo ih =>
    intro k m hk
    have hlt : k < r._desc.length := by omega
    have hget : r._desc[k]? = some r._desc[k] := by simp [hlt]
    have hdrop : r._desc.drop k = r._desc[k] :: r._desc.drop (k + 1) :=
      List.drop_eq_getElem_cons hlt
    have hstep := ih (k + 1) (DescT.clear sz r._desc[k] m) (by omega)
    rw [vmxnet3_ring.clear_descs_loop, clear_desc_valid sz r m k _ hget, hdrop,
      List.foldl_cons]
    push_cast at hstep
    exact hstep

theorem clear_desc_step_none {NDesc : Nat} (sz : Nat) (l : List Nat) :
    l.foldl (vmxnet3_ring.clear_desc_step sz) (none : Option (vmxnet3_ring NDesc × Mem)) =
      none := by
  induction l with
  | nil => rfl
  | cons a rest ih => simpa [vmxnet3_ring.clear_desc_step] using ih

theorem clear_descs_loop_fold {NDesc : Nat} (sz : Nat) (todo : Nat) :
    ∀ (k : Nat) (r : vmxnet3_ring NDesc) (m : Mem),
      vmxnet3_ring.clear_descs_loop sz todo (k : Int) r m =
        (List.range' k todo).foldl (vmxnet3_ring.clear_desc_step sz) (some (r, m)) := by
  induction todo with
  | zero => intro k r m; simp [vmxnet3_ring.clear_descs_loop]
  | succ todo ih =>
    intro k r m
    rw [vmxnet3_ring.clear_descs_loop, List.range'_succ, List.foldl_cons]
    cases hc : r.clear_desc sz m (k : Int) with
    | none =>
      simp only [vmxnet3_ring.clear_desc_step, hc]
      exact (clear_desc_step_none sz _).symm
    | some rm =>
      obtain ⟨r1, m1⟩ := rm
      simp only [vmxnet3_ring.clear_desc_step, hc]
      have := ih (k + 1) r1 m1
      simpa using this

theorem content_zero_of_chunk (sz : Nat) (e : DescT) (m : Mem)
    (h : ∀ a, e.inChunk sz a → m a = 0) : e.content sz m = List.replicate sz 0 := by
  unfold DescT.content
  apply List.ext_getElem
  · simp
  · intro n h1 h2
    simp only [List.length_map, List.length_range] at h1
    simp only [List.getElem_map, List.getElem_range, List.getElem_replicate]
    apply h
    unfold DescT.inChunk
    omega

theorem content_eq_of_chunk (sz : Nat) (e : DescT) (m m1 : Mem)
    (h : ∀ a, e.inChunk sz a → m1 a = m a) : e.content sz m1 = e.content sz m := by
  unfold DescT.content
  apply List.map_congr_left
  intro k hk
  apply h
  have := List.mem_range.mp hk
  unfold DescT.inChunk
  omega

/-- C5: after `clear_desc(i)` with `0 ≤ i < NDesc`, slot `i` holds zeroed content.
`clear_descs()` completes on every ring, equals `clear_desc` applied to the indices
`0 .. NDesc - 1` in turn, leaves every slot of the array with zeroed content, and changes
no byte outside the chunks of the `NDesc` slots. -/
theorem clear_descs_zeroes {NDesc : Nat} (sz : Nat) (r : vmxnet3_ring NDesc) (m : Mem)
    (i : Int) (hi : 0 ≤ i ∧ i < NDesc) :
    (∃ e m1, r._desc[i.toNat]? = some e ∧ r.clear_desc sz m i = some (r, m1) ∧
      e.content sz m1 = List.replicate sz 0) ∧
    (r.clear_descs sz m =
      (List.range NDesc).foldl (vmxnet3_ring.clear_desc_step sz) (some (r, m))) ∧
    (∃ m2, r.clear_descs sz m = some (r, m2) ∧
      (∀ k e, k < NDesc → r._desc[k]? = some e → e.content sz m2 = List.replicate sz 0) ∧
      (∀ a, (¬ ∃ k e, k < NDesc ∧ r._desc[k]? = some e ∧ e.inChunk sz a) → m2 a = m a)) := by
  obtain ⟨hi0, hi1⟩ := hi
  have hlen := r._desc_len
  have hi2 : i.toNat < r._desc.length := by omega
  refine ⟨?_, ?_, ?_⟩
  · refine ⟨r._desc[i.toNat], DescT.clear sz r._desc[i.toNat] m, by simp [hi2], ?_, ?_⟩
    · have := clear_desc_valid sz r m i.toNat r._desc[i.toNat] (by simp [hi2])
      rwa [Int.toNat_of_nonneg hi0] at this
    · apply content_zero_of_chunk
      intro a ha
      unfold DescT.inChunk at ha
      simp [DescT.clear, ha]
  · have := clear_descs_loop_fold sz NDesc 0 r m
    rw [List.range_eq_range']
    simpa [vmxnet3_ring.clear_descs] using this
  · refine ⟨r._desc.foldl (fun acc e => DescT.clear sz e acc) m, ?_, ?_, ?_⟩
    · have := clear_descs_loop_eq sz r NDesc 0 m (by omega)
      simpa [vmxnet3_ring.clear_descs] using this
    · intro k e _ hk
      apply content_zero_of_chunk
      intro a ha
      rw [clear_fold_apply]
      have hmem : e ∈ r._desc := List.getElem?_mem hk
      rw [if_pos ⟨e, hmem, ha⟩]
    · intro a ha
      rw [clear_fold_apply]
      rw [if_neg]
      rintro ⟨e, hmem, hc⟩
      obtain ⟨k, hk, hke⟩ := List.getElem_of_mem hmem
      exact ha ⟨k, e, by omega, by simp [hk, hke], hc⟩

theorem clear_descs_zeroes_witness :
    ((0 : Int) ≤ 2 ∧ (2 : Int) < (4 : Nat)) ∧
    (∃ e m1, exampleRing._desc[(2 : Int).toNat]? = some e ∧
      exampleRing.clear_desc 16 exampleMem 2 = some (exampleRing, m1) ∧
      e.content 16 m1 = List.replicate 16 0) ∧
    (exampleRing.clear_descs 16 exampleMem =
      (List.range 4).foldl (vmxnet3_ring.clear_desc_step 16) (some (exampleRing, exampleMem))) ∧
    (∃ m2, exampleRing.clear_descs 16 exampleMem = some (exampleRing, m2) ∧
      (∀ k e, k < 4 → exampleRing._desc[k]? = some e → e.content 16 m2 = List.replicate 16 0) ∧
      (∀ a, (¬ ∃ k e, k < 4 ∧ exampleRing._desc[k]? = some e ∧ e.inChunk 16 a) →
        m2 a = exampleMem a)) :=
  ⟨by decide, clear_descs_zeroes 16 exampleRing exampleMem 2 (by decide)⟩

/-- C8: on a ring laid out by the constructor, `clear_desc(i)` with `0 ≤ i < NDesc` changes
only slot `i`: no byte outside the chunk of slot `i` changes, every other slot `j` keeps
its content, and `head`, `next`, `fill`, `gen` and the slot array are unchanged.
`clear_descs()` likewise leaves `head`, `next`, `fill` and `gen` unchanged. -/
theorem clear_desc_frame {NDesc : Nat} (sz : Nat) (r : vmxnet3_ring NDesc) (m : Mem)
    (i j : Int) (hs : r.Sliced sz) (hi : 0 ≤ i ∧ i < NDesc) (hj : 0 ≤ j ∧ j < NDesc)
    (hij : j ≠ i) :
    (∃ r1 m1 ei ej, r.clear_desc sz m i = some (r1, m1) ∧
      r._desc[i.toNat]? = some ei ∧ r._desc[j.toNat]? = some ej ∧
      (∀ a, ¬ ei.inChunk sz a → m1 a = m a) ∧
      ej.content sz m1 = ej.content sz m ∧
      r1.head = r.head ∧ r1.next = r.next ∧ r1.fill = r.fill ∧ r1.gen = r.gen ∧
      r1._desc = r._desc) ∧
    (∃ r2 m2, r.clear_descs sz m = some (r2, m2) ∧
      r2.head = r.head ∧ r2.next = r.next ∧ r2.fill = r.fill ∧ r2.gen = r.gen ∧
      r2._desc = r._desc) := by
  obtain ⟨hi0, hi1⟩ := hi
  obtain ⟨hj0, hj1⟩ := hj
  have hsi := sliced_slot sz r hs i.toNat (by omega)
  have hsj := sliced_slot sz r hs j.toNat (by omega)
  constructor
  · refine ⟨r, DescT.clear sz { layout := r._desc_mem.get_va + i.toNat * sz } m, _, _, ?_,
      hsi, hsj, ?_, ?_, rfl, rfl, rfl, rfl, rfl⟩
    · have := clear_desc_valid sz r m i.toNat _ hsi
      rwa [Int.toNat_of_nonneg hi0] at this
    · intro a ha
      unfold DescT.inChunk at ha
      simp [DescT.clear, ha]
    · apply content_eq_of_chunk
      intro a ha
      have hne : ¬ DescT.inChunk sz { layout := r._desc_mem.get_va + i.toNat * sz } a := by
        intro hc
        have e1 := (chunk_index sz _ _ a hc).2
        have e2 := (chunk_index sz _ _ a ha).2
        have : i.toNat = j.toNat := e1.symm.trans e2
        omega
      unfold DescT.inChunk at hne
      simp [DescT.clear, hne]
  · have := clear_descs_loop_eq sz r NDesc 0 m (by have := r._desc_len; omega)
    exact ⟨r, _, by simpa [vmxnet3_ring.clear_descs] using this, rfl, rfl, rfl, rfl, rfl⟩

theorem clear_desc_frame_witness :
    exampleRing.Sliced 16 ∧ ((0 : Int) ≤ 2 ∧ (2 : Int) < (4 : Nat)) ∧
    ((0 : Int) ≤ 3 ∧ (3 : Int) < (4 : Nat)) ∧ (3 : Int) ≠ 2 ∧
    (∃ r1 m1 ei ej, exampleRing.clear_desc 16 exampleMem 2 = some (r1, m1) ∧
      exampleRing._desc[(2 : Int).toNat]? = some ei ∧
      exampleRing._desc[(3 : Int).toNat]? = some ej ∧
      (∀ a, ¬ ei.inChunk 16 a → m1 a = exampleMem a) ∧
      ej.content 16 m1 = ej.content 16 exampleMem ∧
      r1.head = exampleRing.head ∧ r1.next = exampleRing.next ∧
      r1.fill = exampleRing.fill ∧ r1.gen = exampleRing.gen ∧
      r1._desc = exampleRing._desc) ∧
    (∃ r2 m2, exampleRing.clear_descs 16 exampleMem = some (r2, m2) ∧
      r2.head = exampleRing.head ∧ r2.next = exampleRing.next ∧
      r2.fill = exampleRing.fill ∧ r2.gen = exampleRing.gen ∧
      r2._desc = exampleRing._desc) :=
  ⟨construct_sliced 16 4 4096 0 0 0 1, by decide, by decide, by decide,
    clear_desc_frame 16 exampleRing exampleMem 2 3 (construct_sliced 16 4 4096 0 0 0 1)
      (by decide) (by decide) (by decide)⟩

/-! ## Cursor arithmetic: occupancy and parity -/

theorem advances_next_gen {NDesc : Nat} (r : vmxnet3_ring NDesc) (k : Nat) :
    (r.fresh.advances k).next = k % NDesc ∧
    (r.fresh.advances k).gen = Int.xor init_gen (((k / NDesc) % 2 : Nat) : Int) := by
  induction k with
  | zero =>
    refine ⟨by simp [vmxnet3_ring.advances, vmxnet3_ring.fresh], ?_⟩
    simp only [vmxnet3_ring.advances, vmxnet3_ring.fresh, Nat.zero_div, Nat.zero_mod]
    decide
  | succ k ih =>
    obtain ⟨ihn, ihg⟩ := ih
    rcases Nat.eq_zero_or_pos NDesc with h0 | hpos
    · subst h0
      have hw : ¬ (r.fresh.advances k).next + 1 = 0 := by omega
      simp only [vmxnet3_ring.advances, vmxnet3_ring.increment_fill, hw, if_false]
      refine ⟨by simp [ihn], ?_⟩
      simpa using ihg
    · have hm := Nat.mod_lt k hpos
      have hd := Nat.div_add_mod k NDesc
      by_cases hw : (r.fresh.advances k).next + 1 = NDesc
      · have hk : k + 1 = NDesc * (k / NDesc + 1) := by
          rw [Nat.mul_add, Nat.mul_one]; omega
        have hdiv : (k + 1) / NDesc = k / NDesc + 1 := by
          rw [hk, Nat.mul_div_cancel_left _ hpos]
        have hmod : (k + 1) % NDesc = 0 := by
          rw [hk, Nat.mul_mod_right]
        simp only [vmxnet3_ring.advances, vmxnet3_ring.increment_fill, hw, if_true]
        refine ⟨hmod.symm, ?_⟩
        rw [ihg, hdiv]
        rcases Nat.mod_two_eq_zero_or_one (k / NDesc) with h | h
        · have h2 : (k / NDesc + 1) % 2 = 1 := by omega
          rw [h, h2]; decide
        · have h2 : (k / NDesc + 1) % 2 = 0 := by omega
          rw [h, h2]; decide
      · have hlt : k % NDesc + 1 < NDesc := by omega
        have hdiv : (k + 1) / NDesc = k / NDesc := by
          apply Nat.div_eq_of_lt_le
          · calc k / NDesc * NDesc = NDesc * (k / NDesc) := Nat.mul_comm _ _
              _ ≤ k + 1 := by omega
          · calc k + 1 < NDesc * (k / NDesc) + NDesc := by omega
              _ = (k / NDesc + 1) * NDesc := by rw [Nat.add_mul, Nat.one_mul, Nat.mul_comm]
        have hmod : (k + 1) % NDesc = k % NDesc + 1 := by
          have hd1 := Nat.div_add_mod (k + 1) NDesc
          rw [hdiv] at hd1
          omega
        simp only [vmxnet3_ring.advances, vmxnet3_ring.increment_fill, hw, if_false]
        refine ⟨by omega, ?_⟩
        rw [ihg, hdiv]

theorem one_multiple_in_window (N k : Nat) (hN : 0 < N) :
    ((List.range N).filter (fun j => decide ((k + j + 1) % N = 0))).length = 1 := by
  have hc := Nat.mod_lt k hN
  have hd := Nat.div_add_mod k N
  have hiff : ∀ j, j ∈ List.range N →
      (decide ((k + j + 1) % N = 0) = true ↔ (j == N - 1 - k % N) = true) := by
    intro j hj
    have hj1 := List.mem_range.mp hj
    simp only [decide_eq_true_eq, beq_iff_eq]
    constructor
    · intro h
      have h1 : (k % N + j + 1) % N = 0 := by
        have : k + j + 1 = k % N + j + 1 + N * (k / N) := by omega
        rw [this, Nat.add_mul_mod_self_left] at h
        exact h
      by_contra hne
      rcases Nat.lt_or_ge (k % N + j + 1) N with hlt | hge
      · rw [Nat.mod_eq_of_lt hlt] at h1; omega
      · have h2 : (k % N + j + 1 - N) % N = 0 := by
          rw [Nat.mod_eq_sub_mod hge] at h1; exact h1
        rw [Nat.mod_eq_of_lt (by omega)] at h2
        omega
    · intro h
      have : k + j + 1 = N * (k / N + 1) := by
        rw [Nat.mul_add, Nat.mul_one]; omega
      rw [this, Nat.mul_mod_right]
  rw [List.filter_congr (fun j hj => Bool.eq_iff_iff.mpr (hiff j hj)),
    ← List.countP_eq_length_filter]
  have := List.count_eq_one_of_mem (List.nodup_range N)
    (List.mem_range.mpr (show N - 1 - k % N < N by omega))
  simpa [List.count] using this

theorem increment_fill_gen {NDesc : Nat} (s : vmxnet3_ring NDesc) :
    s.increment_fill.gen = if s.next + 1 = NDesc then Int.xor s.gen 1 else s.gen := by
  unfold vmxnet3_ring.increment_fill
  split <;> rfl

theorem succ_mod_eq_zero_iff (N k : Nat) (hN : 0 < N) :
    (k + 1) % N = 0 ↔ k % N + 1 = N := by
  have hm := Nat.mod_lt k hN
  rw [Nat.add_mod]
  rcases Nat.lt_or_ge 1 N with h1 | h1
  · rw [Nat.mod_eq_of_lt h1]
    rcases Nat.lt_or_ge (k % N + 1) N with h | h
    · rw [Nat.mod_eq_of_lt h]; omega
    · have : k % N + 1 = N := by omega
      rw [this, Nat.mod_self]; simp
  · have : N = 1 := by omega
    subst this
    simp [Nat.mod_one]

/-- C2: on a ring that starts freshly initialised (`gen = init_gen = 1`), after `k`
`increment_fill` advances `gen = init_gen XOR (floor(k / NDesc) mod 2)`; `gen` only takes
the values 0 and 1; an advance flips `gen` exactly when it wraps `next` around the end of
the ring, which is exactly when the number of advances becomes a multiple of `NDesc`, and
leaves it alone otherwise; and among any `NDesc` consecutive advances exactly one flips
`gen`. -/
theorem gen_flips_once_per_traversal {NDesc : Nat} (r : vmxnet3_ring NDesc) (k : Nat)
    (hN : 0 < NDesc) :
    (r.fresh.advances 0).gen = init_gen ∧
    (r.fresh.advances k).gen = Int.xor init_gen (((k / NDesc) % 2 : Nat) : Int) ∧
    ((r.fresh.advances k).gen = 0 ∨ (r.fresh.advances k).gen = 1) ∧
    ((r.fresh.advances (k + 1)).gen ≠ (r.fresh.advances k).gen ↔
      (r.fresh.advances k).next + 1 = NDesc) ∧
    ((r.fresh.advances (k + 1)).gen ≠ (r.fresh.advances k).gen ↔ (k + 1) % NDesc = 0) ∧
    ((r.fresh.advances (k + 1)).gen = (r.fresh.advances k).gen ∨
      (r.fresh.advances (k + 1)).gen = Int.xor (r.fresh.advances k).gen 1) ∧
    ((List.range NDesc).filter (fun j =>
      decide ((r.fresh.advances (k + j + 1)).gen ≠ (r.fresh.advances (k + j)).gen))).length
      = 1 := by
  have hval : ∀ n, (r.fresh.advances n).gen = 0 ∨ (r.fresh.advances n).gen = 1 := by
    intro n
    rw [(advances_next_gen r n).2]
    rcases Nat.mod_two_eq_zero_or_one (n / NDesc) with h | h <;> rw [h]
    · right; decide
    · left; decide
  have hstep : ∀ n, (r.fresh.advances (n + 1)).gen =
      if (r.fresh.advances n).next + 1 = NDesc then Int.xor (r.fresh.advances n).gen 1
      else (r.fresh.advances n).gen := fun n => increment_fill_gen _
  have hflip : ∀ n, ((r.fresh.advances (n + 1)).gen ≠ (r.fresh.advances n).gen ↔
      (r.fresh.advances n).next + 1 = NDesc) := by
    intro n
    rw [hstep n]
    by_cases hw : (r.fresh.advances n).next + 1 = NDesc
    · simp only [hw, if_true, ne_eq, iff_true]
      rcases hval n with h | h <;> rw [h] <;> decide
    · simp [hw]
  have hmul : ∀ n, ((r.fresh.advances (n + 1)).gen ≠ (r.fresh.advances n).gen ↔
      (n + 1) % NDesc = 0) := by
    intro n
    rw [hflip n, (advances_next_gen r n).1, succ_mod_eq_zero_iff NDesc n hN]
  refine ⟨rfl, (advances_next_gen r k).2, hval k, hflip k, hmul k, ?_, ?_⟩
  · rw [hstep k]
    by_cases hw : (r.fresh.advances k).next + 1 = NDesc
    · right; simp [hw]
    · left; simp [hw]
  · refine Eq.trans ?_ (one_multiple_in_window NDesc k hN)
    congr 1
    apply List.filter_congr
    intro j _
    have := hmul (k + j)
    by_cases h : (k + j + 1) % NDesc = 0
    · simp [h, this.mpr h]
    · have h2 : ¬ (r.fresh.advances (k + j + 1)).gen ≠ (r.fresh.advances (k + j)).gen :=
        fun hc => h (this.mp hc)
      simp only [h, decide_False, decide_eq_false_iff_not]
      exact h2

theorem gen_flips_once_per_traversal_witness :
    0 < 4 ∧ (exampleRing.fresh.advances 9).gen =
      Int.xor init_gen (((9 / 4) % 2 : Nat) : Int) :=
  ⟨by decide, (gen_flips_once_per_traversal exampleRing 9 (by decide)).2.1⟩

/-! ## The transmit step -/

/-- C3: when the fragment count of the request exceeds `txq.avail`, the transmit step rejects
the whole chain: the result is not success, memory (hence every descriptor) is as it was,
and the queue, in particular the command ring's `head`, `next`, `fill`, `gen`, the side
table `buf` and `avail`, is as it was. -/
theorem xmit_rejects_whole_chain {NTX NTXC : Nat} (sz : Nat) (enc : tx_fields → Nat → Nat)
    (offload : vmxnet3_req → Nat) (txq : vmxnet3_txqueue NTX NTXC) (m : Mem)
    (req : vmxnet3_req) (hfull : txq.avail < req.count) :
    (try_xmit_one_locked sz enc offload txq m req).1 ≠ .accepted ∧
    (try_xmit_one_locked sz enc offload txq m req).2.2 = m ∧
    (try_xmit_one_locked sz enc offload txq m req).2.1.cmd_ring.head = txq.cmd_ring.head ∧
    (try_xmit_one_locked sz enc offload txq m req).2.1.cmd_ring.next = txq.cmd_ring.next ∧
    (try_xmit_one_locked sz enc offload txq m req).2.1.cmd_ring.fill = txq.cmd_ring.fill ∧
    (try_xmit_one_locked sz enc offload txq m req).2.1.cmd_ring.gen = txq.cmd_ring.gen ∧
    (try_xmit_one_locked sz enc offload txq m req).2.1.buf = txq.buf ∧
    (try_xmit_one_locked sz enc offload txq m req).2.1.avail = txq.avail ∧
    try_xmit_one_locked sz enc offload txq m req = (.rejected, txq, m) := by
  have h : try_xmit_one_locked sz enc offload txq m req = (.rejected, txq, m) := by
    simp [try_xmit_one_locked, hfull]
  rw [h]
  exact ⟨by simp, rfl, rfl, rfl, rfl, rfl, rfl, rfl, rfl⟩

theorem xmit_rejects_whole_chain_witness :
    exampleTxq.avail < exampleReq.count ∧
    try_xmit_one_locked 16 exampleEnc (fun _ => 0) exampleTxq exampleMem exampleReq =
      (.rejected, exampleTxq, exampleMem) :=
  ⟨by decide,
    (xmit_rejects_whole_chain 16 exampleEnc (fun _ => 0) exampleTxq exampleMem exampleReq
      (by decide)).2.2.2.2.2.2.2.2⟩

end vmw
